import Mathlib

set_option maxRecDepth 10000

/-!
Shallow embedding of the go-deque repository (src/deque/deque.go): a generic
circular double-ended queue backed by a slice, growing by doubling and
optionally shrinking back to a configured minimum size.

Go `int` fields are modelled as `Int`; the backing slice `dat` is modelled as
a `List T` whose length is the slice capacity (the Go code keeps
`len(d.dat) = cap(d.dat)` at all times: `resize` allocates with `make([]T, size)`
and `WrapSlice` reslices to `dat[:cap(dat)]`).  The Go zero value of an
element type is modelled by `default` from an `Inhabited` instance.
-/

/-- Slice size to use when none is specified (Go constant DefaultSize = 32). -/
def DefaultSize : Int := 32

/-- Shrink policy constants (Go iota). -/
def ShrinkNever : Int := 0

/-- Shrink policy: shrink back to Minsize when the deque becomes empty. -/
def ShrinkIfEmpty : Int := 1

/-- Shrink policy: shrink back to Minsize when length is at most 20 percent
    of capacity (and fits within Minsize). -/
def ShrinkAt20Pct : Int := 2

/-- Go struct Deque[T]: Minsize and Shrink are exported ints; head, tail,
    len are unexported ints; dat is the backing slice. -/
structure Deque (T : Type) where
  Minsize : Int
  Shrink : Int
  head : Int
  tail : Int
  len : Int
  dat : List T
deriving DecidableEq

/-- Semantics of the Go built-in copy(dst, src): overwrite the first
    min |dst| |src| slots of dst with those of src, leave the rest of dst. -/
def goCopy {T : Type} (dst src : List T) : List T :=
  src.take dst.length ++ dst.drop src.length

/-- Go method resize: copy the occupied run into a new slice of the given
    size; in the new slice head is always 0.  Go allocates with
    make([]T, size); no call site ever passes a negative size (grow always
    passes a positive size and shrink passes Minsize only when
    0 ≤ len ≤ Minsize), so Int.toNat is exact wherever resize is reached. -/
def Deque.resize {T : Type} [Inhabited T] (d : Deque T) (size : Int) : Deque T :=
  let tmp : List T := List.replicate size.toNat default
  let dat' : List T :=
    if 0 < d.len then
      -- end := cap(d.dat); if end-d.head > d.len { end = d.head + d.len }
      let end1 : Int :=
        if (d.dat.length : Int) - d.head > d.len then d.head + d.len
        else (d.dat.length : Int)
      -- count := copy(tmp, d.dat[d.head:end])
      let src1 := (d.dat.drop d.head.toNat).take (end1 - d.head).toNat
      let count := min tmp.length src1.length
      let tmp1 := goCopy tmp src1
      -- if d.len > count { copy(tmp[count:], d.dat[:d.len-count]) }
      if d.len > (count : Int) then
        tmp1.take count ++ goCopy (tmp1.drop count) (d.dat.take (d.len - (count : Int)).toNat)
      else tmp1
    else tmp
  { d with dat := dat', head := 0,
           tail := (if d.len = 0 then size else d.len) - 1 }

/-- The doubling loop in grow (Go: for size < need { size *= 2 }), with an
    explicit fuel argument to make the definition structurally recursive. -/
def growLoopAux : Nat → Nat → Nat → Nat
  | 0, size, _ => size
  | fuel + 1, size, need =>
      if size < need then growLoopAux fuel (size * 2) need else size

/-- Result of the doubling loop.  Fuel need suffices: starting from any
    positive size, k doublings reach at least 2^k, and need ≤ 2^need
    (the Go loop is only ever entered with a positive starting size). -/
def growLoop (size need : Nat) : Nat := growLoopAux need size need

/-- Go method grow: if len + add overflows capacity, default Minsize when
    non-positive, start from the current capacity (or Minsize when
    unallocated) and double until len + add fits, then resize. -/
def Deque.grow {T : Type} [Inhabited T] (d : Deque T) (add : Int) : Deque T :=
  if d.len + add > (d.dat.length : Int) then
    let m : Int := if d.Minsize ≤ 0 then DefaultSize else d.Minsize
    let size0 : Nat := if d.dat.length = 0 then m.toNat else d.dat.length
    let size : Nat := growLoop size0 (d.len + add).toNat
    Deque.resize { d with Minsize := m } (size : Int)
  else d

/-- Go method shrink: optionally resize down to Minsize after a removal,
    according to the configured policy. -/
def Deque.shrink {T : Type} [Inhabited T] (d : Deque T) : Deque T :=
  if d.Shrink = ShrinkNever then d
  else if d.len > d.Minsize ∨ (d.dat.length : Int) = d.Minsize then d
  else if d.Shrink = ShrinkAt20Pct ∧ d.len * 5 > (d.dat.length : Int) then d
  else if d.Shrink = ShrinkIfEmpty ∧ 0 < d.len then d
  else d.resize d.Minsize

/-- Go method push (lower case): push a single value, only called after
    grow has ensured capacity. -/
def Deque.push {T : Type} (d : Deque T) (v : T) : Deque T :=
  let tail' : Int := if d.tail + 1 = (d.dat.length : Int) then 0 else d.tail + 1
  { d with len := d.len + 1, tail := tail', dat := d.dat.set tail'.toNat v }

/-- Go method Push: enqueue values onto the end of the deque. -/
def Deque.Push {T : Type} [Inhabited T] (d : Deque T) (vs : List T) : Deque T :=
  vs.foldl Deque.push (d.grow (vs.length : Int))

/-- Go method unshift (lower case): prepend a single value, only called
    after grow has ensured capacity. -/
def Deque.unshift {T : Type} (d : Deque T) (v : T) : Deque T :=
  let head' : Int := (if d.head = 0 then (d.dat.length : Int) else d.head) - 1
  { d with len := d.len + 1, head := head', dat := d.dat.set head'.toNat v }

/-- Go method Unshift: enqueue values onto the head of the deque. -/
def Deque.Unshift {T : Type} [Inhabited T] (d : Deque T) (vs : List T) : Deque T :=
  vs.foldl Deque.unshift (d.grow (vs.length : Int))

/-- Go method Pop: return and remove a single value from the end, then
    optionally shrink.  When empty, return a zero value and false. -/
def Deque.Pop {T : Type} [Inhabited T] (d : Deque T) : T × Bool × Deque T :=
  if 0 < d.len then
    let v := d.dat.getD d.tail.toNat default
    let tail' : Int := (if d.tail = 0 then (d.dat.length : Int) else d.tail) - 1
    (v, true, Deque.shrink { d with len := d.len - 1, tail := tail' })
  else (default, false, d)

/-- Go method Shift: return and remove a single value from the head, then
    optionally shrink.  When empty, return a zero value and false. -/
def Deque.Shift {T : Type} [Inhabited T] (d : Deque T) : T × Bool × Deque T :=
  if 0 < d.len then
    let v := d.dat.getD d.head.toNat default
    let head' : Int := if d.head + 1 = (d.dat.length : Int) then 0 else d.head + 1
    (v, true, Deque.shrink { d with len := d.len - 1, head := head' })
  else (default, false, d)

/-- Go method Peek: return a single value from the end without removal.
    The method body contains no writes; the unchanged receiver is returned
    as the third component. -/
def Deque.Peek {T : Type} [Inhabited T] (d : Deque T) : T × Bool × Deque T :=
  if 0 < d.len then (d.dat.getD d.tail.toNat default, true, d)
  else (default, false, d)

/-- Go method PeekShift: return a single value from the head without
    removal. -/
def Deque.PeekShift {T : Type} [Inhabited T] (d : Deque T) : T × Bool × Deque T :=
  if 0 < d.len then (d.dat.getD d.head.toNat default, true, d)
  else (default, false, d)

/-- Go method Len: length of the deque. -/
def Deque.Len {T : Type} (d : Deque T) : Int := d.len

/-- Go method Cap: capacity of the deque. -/
def Deque.Cap {T : Type} (d : Deque T) : Int := (d.dat.length : Int)

/-- Go method ToSlice: return a slice of the deque arranged with head
    equal to 0 (resizing in place to the current capacity when the
    occupied run is not already based at 0). -/
def Deque.ToSlice {T : Type} [Inhabited T] (d : Deque T) : List T × Deque T :=
  if d.len = 0 then ([], d)
  else
    let d' := if d.head ≠ 0 then d.resize (d.dat.length : Int) else d
    (d'.dat.take d'.len.toNat, d')

/-- Go method WrapSlice: use a provided slice as the backing store.
    A Go slice value carries both a length and a capacity; the parameter
    arr models the full capacity extent (Go dat[:cap(dat)]) and l models
    len(dat), with l ≤ arr.length. -/
def Deque.WrapSlice {T : Type} (d : Deque T) (arr : List T) (l : Nat) : Deque T :=
  { d with dat := arr, len := (l : Int), head := 0,
           tail := (if (l : Int) = 0 then (arr.length : Int) else (l : Int)) - 1 }

/-- Repeatedly Shift, collecting the returned (value, ok) pairs. -/
def drainShift {T : Type} [Inhabited T] : Nat → Deque T → List (T × Bool)
  | 0, _ => []
  | n + 1, d =>
      let r := d.Shift
      (r.1, r.2.1) :: drainShift n r.2.2

/-- Repeatedly Pop, collecting the returned (value, ok) pairs. -/
def drainPop {T : Type} [Inhabited T] : Nat → Deque T → List (T × Bool)
  | 0, _ => []
  | n + 1, d =>
      let r := d.Pop
      (r.1, r.2.1) :: drainPop n r.2.2

/-- Rotation of the backing list: the list as read starting from index h. -/
def rotAt {T : Type} (l : List T) (h : Nat) : List T := l.drop h ++ l.take h

/-- Logical head-to-tail content of a deque. -/
def Deque.toList {T : Type} (d : Deque T) : List T :=
  (rotAt d.dat d.head.toNat).take d.len.toNat

/-- Well-formedness: cursors in range, length within capacity, and tail
    sitting len - 1 ring steps after head (in Nat form, adding one full
    turn before subtracting 1 to avoid truncated subtraction). -/
def WF {T : Type} (d : Deque T) : Prop :=
  0 ≤ d.head ∧ 0 ≤ d.len ∧ d.len ≤ (d.dat.length : Int) ∧
  (0 < d.dat.length →
    d.head.toNat < d.dat.length ∧
    d.tail = (((d.head.toNat + d.len.toNat + d.dat.length - 1) % d.dat.length : Nat) : Int)) ∧
  (d.dat.length = 0 → d.len = 0)

instance decWF {T : Type} (d : Deque T) : Decidable (WF d) := by
  unfold WF
  infer_instance

/-- Public operations of the deque, for stating reachable-state
    invariants over arbitrary operation sequences. -/
inductive DOp (T : Type) where
  | push (vs : List T)
  | unshift (vs : List T)
  | pop
  | shift
  | peek
  | peekShift
  | toSlice
  | wrap (arr : List T) (l : Nat)

/-- Apply one public operation (keeping only the mutated deque). -/
def applyOp {T : Type} [Inhabited T] (d : Deque T) : DOp T → Deque T
  | .push vs => d.Push vs
  | .unshift vs => d.Unshift vs
  | .pop => (d.Pop).2.2
  | .shift => (d.Shift).2.2
  | .peek => (d.Peek).2.2
  | .peekShift => (d.PeekShift).2.2
  | .toSlice => (d.ToSlice).2
  | .wrap arr l => d.WrapSlice arr l

/-- Run a sequence of public operations from a starting state. -/
def runOps {T : Type} [Inhabited T] (d : Deque T) (ops : List (DOp T)) : Deque T :=
  ops.foldl applyOp d

/-- Capacities of buffers adopted by WrapSlice operations in a sequence. -/
def wrapBases {T : Type} : List (DOp T) → List Nat
  | [] => []
  | DOp.wrap arr _ :: ops => arr.length :: wrapBases ops
  | _ :: ops => wrapBases ops

/-- The effective minimum size: Minsize, defaulted to 32 when non-positive. -/
def effMin (m : Int) : Nat := if m ≤ 0 then 32 else m.toNat

/-- A capacity is accounted for by a base set: zero (unallocated) or a
    base times a power of two. -/
def CapOK (S : List Nat) (c : Nat) : Prop :=
  c = 0 ∨ ∃ b ∈ S, ∃ k : Nat, c = b * 2 ^ k

/-- Minsize is either still the configured value or its grow-time default. -/
def MOK {T : Type} (m : Int) (d : Deque T) : Prop :=
  d.Minsize = m ∨ (m ≤ 0 ∧ d.Minsize = DefaultSize)

/-! Basic helper lemmas about the embedded operations. -/

theorem goCopy_length {T : Type} (dst src : List T) :
    (goCopy dst src).length = dst.length := by
  simp [goCopy]; omega

/-- The backing slice produced by resize always has exactly the
    requested (non-negative) size. -/
theorem resize_dat_length {T : Type} [Inhabited T] (d : Deque T) (size : Int) :
    (d.resize size).dat.length = size.toNat := by
  unfold Deque.resize
  simp only [goCopy]
  split_ifs <;>
    simp only [List.length_append, List.length_take, List.length_drop,
      List.length_replicate] <;> omega

/-- Under policy ShrinkNever, shrink is the identity. -/
theorem shrink_of_never {T : Type} [Inhabited T] (d : Deque T)
    (h : d.Shrink = ShrinkNever) : d.shrink = d := by
  unfold Deque.shrink
  simp [h]

/-- Whenever Minsize does not exceed the current capacity, shrink never
    enlarges the backing slice. -/
theorem shrink_cap_le {T : Type} [Inhabited T] (d : Deque T)
    (h : d.Minsize ≤ (d.dat.length : Int)) :
    (d.shrink).dat.length ≤ d.dat.length := by
  unfold Deque.shrink
  split_ifs with h1 h2 h3 h4
  · exact le_refl _
  · exact le_refl _
  · exact le_refl _
  · exact le_refl _
  · rw [resize_dat_length]; omega

/-- C1: growing while the occupied run wraps (head greater than tail)
    preserves element order exactly as in the non-wrapped case: with
    min_size = 4, pushing 1..4, shifting twice (returning 1 and 2), then
    pushing 5..8 one at a time (the push of 7 forces a grow from a wrapped
    state, visible as head > tail and capacity 4 just before it) and
    draining by Shift returns 3,4,5,6,7,8 in exact logical order. -/
theorem c1_wrapped_grow_preserves_order :
    drainShift 2 (Deque.Push (⟨4, ShrinkNever, 0, 0, 0, []⟩ : Deque Int) [1, 2, 3, 4]) =
      [(1, true), (2, true)] ∧
    (let d2 := (Deque.Push (⟨4, ShrinkNever, 0, 0, 0, []⟩ : Deque Int)
        [1, 2, 3, 4]).Shift.2.2.Shift.2.2
     let dw := (d2.Push [5]).Push [6]
     dw.head > dw.tail ∧ dw.Cap = 4 ∧ ((dw.Push [7]).Push [8]).Cap = 8 ∧
     drainShift 6 ((dw.Push [7]).Push [8]) =
       [(3, true), (4, true), (5, true), (6, true), (7, true), (8, true)]) := by
  decide

/-- C3: with Minsize = 2 and policy ShrinkNever, pushing five elements one
    at a time yields the capacity sequence 2, 2, 4, 4, 8 (doubling only on
    overflow); and under ShrinkNever no Pop or Shift ever changes the
    capacity of any deque. -/
theorem c3_capacity_doubling_and_never_shrinks :
    (let d0 : Deque Int := ⟨2, ShrinkNever, 0, 0, 0, []⟩
     let d1 := d0.Push [1]
     let d2 := d1.Push [2]
     let d3 := d2.Push [3]
     let d4 := d3.Push [4]
     let d5 := d4.Push [5]
     d1.Cap = 2 ∧ d2.Cap = 2 ∧ d3.Cap = 4 ∧ d4.Cap = 4 ∧ d5.Cap = 8) ∧
    (∀ (T : Type) [Inhabited T] (d : Deque T), d.Shrink = ShrinkNever →
      (d.Pop).2.2.Cap = d.Cap ∧ (d.Shift).2.2.Cap = d.Cap) := by
  refine ⟨by decide, ?_⟩
  intro T _ d h
  constructor
  · unfold Deque.Pop
    split
    · simp only [Deque.Cap]
      rw [shrink_of_never]
      exact h
    · rfl
  · unfold Deque.Shift
    split
    · simp only [Deque.Cap]
      rw [shrink_of_never]
      exact h
    · rfl

/-- Witness for C3: the universal part applied to a concrete deque. -/
theorem c3_witness :
    ((⟨2, ShrinkNever, 0, 0, 1, [7]⟩ : Deque Int).Pop).2.2.Cap =
      (⟨2, ShrinkNever, 0, 0, 1, [(7 : Int)]⟩ : Deque Int).Cap ∧
    ((⟨2, ShrinkNever, 0, 0, 1, [7]⟩ : Deque Int).Shift).2.2.Cap =
      (⟨2, ShrinkNever, 0, 0, 1, [(7 : Int)]⟩ : Deque Int).Cap :=
  c3_capacity_doubling_and_never_shrinks.2 Int _ rfl

/-- C4: with Minsize = 2 and policy ShrinkAt20Pct, after growing to
    capacity 8 holding 5 elements, the single-element removals leaving
    lengths 4, 3 and 2 do not change the capacity, and the removal that
    brings the length to 1 (1 * 5 <= 8, inclusive comparison) shrinks the
    capacity to 2. -/
theorem c4_at20pct_shrink_boundary :
    (let d := Deque.Push (⟨2, ShrinkAt20Pct, 0, 0, 0, []⟩ : Deque Int) [1, 2, 3, 4, 5]
     let s1 := d.Shift.2.2
     let s2 := s1.Shift.2.2
     let s3 := s2.Shift.2.2
     let s4 := s3.Shift.2.2
     Deque.Cap d = 8 ∧ Deque.Len d = 5 ∧
     Deque.Len s1 = 4 ∧ Deque.Cap s1 = 8 ∧
     Deque.Len s2 = 3 ∧ Deque.Cap s2 = 8 ∧
     Deque.Len s3 = 2 ∧ Deque.Cap s3 = 8 ∧
     Deque.Len s4 = 1 ∧ Deque.Cap s4 = 2) := by
  decide

/-- Counterexample to C5 as stated: shrink can enlarge the allocation.
    With Minsize = 3, policy ShrinkIfEmpty and an adopted 2-element buffer,
    the Pop that empties the deque triggers the shrink step to reallocate
    to Minsize = 3, so capacity goes up from 2 to 3. -/
theorem c5_counterexample :
    let d1 := ((Deque.WrapSlice (⟨3, ShrinkIfEmpty, 0, 0, 0, []⟩ : Deque Int) [8, 9] 2).Pop).2.2
    d1.Cap = 2 ∧ (d1.Pop).2.2.Cap = 3 ∧ ¬((d1.Pop).2.2.Cap ≤ d1.Cap) := by
  decide

/-- C5 amended: whenever Minsize does not exceed the current capacity
    (which holds in every state whose capacity was produced by grow or
    shrink with an unchanged Minsize), a Pop or Shift never increases the
    capacity, whether or not its shrink step reallocates. -/
theorem c5_shrink_only_reduces :
    ∀ (T : Type) [Inhabited T] (d : Deque T),
    d.Minsize ≤ d.Cap → (d.Pop).2.2.Cap ≤ d.Cap ∧ (d.Shift).2.2.Cap ≤ d.Cap := by
  intro T _ d h
  constructor
  · unfold Deque.Pop
    split
    · simp only [Deque.Cap, Nat.cast_le]
      exact shrink_cap_le _ h
    · exact le_refl _
  · unfold Deque.Shift
    split
    · simp only [Deque.Cap, Nat.cast_le]
      exact shrink_cap_le _ h
    · exact le_refl _

/-- Witness for C5 amended: a state where the shrink step does reallocate
    (capacity 8 down to Minsize 2 on the Pop that leaves length 1). -/
theorem c5_witness :
    ((⟨2, ShrinkAt20Pct, 0, 0, 2, [5, 6, 0, 0, 0, 0, 0, 0]⟩ : Deque Int).Pop).2.2.Cap ≤
      (⟨2, ShrinkAt20Pct, 0, 0, 2, [(5 : Int), 6, 0, 0, 0, 0, 0, 0]⟩ : Deque Int).Cap ∧
    ((⟨2, ShrinkAt20Pct, 0, 0, 2, [5, 6, 0, 0, 0, 0, 0, 0]⟩ : Deque Int).Shift).2.2.Cap ≤
      (⟨2, ShrinkAt20Pct, 0, 0, 2, [(5 : Int), 6, 0, 0, 0, 0, 0, 0]⟩ : Deque Int).Cap :=
  c5_shrink_only_reduces Int _ (by decide)

/-- C8: Pop and Shift on an empty deque return the zero value with
    found = false and leave the entire state (length, capacity, cursors,
    storage, configuration) unchanged; in particular no shrink occurs. -/
theorem c8_pop_shift_on_empty :
    ∀ (T : Type) [Inhabited T] (d : Deque T), d.len = 0 →
    d.Pop = (default, false, d) ∧ d.Shift = (default, false, d) := by
  intro T _ d h
  unfold Deque.Pop Deque.Shift
  rw [if_neg (by omega), if_neg (by omega)]
  exact ⟨rfl, rfl⟩

/-- Witness for C8 on a concrete empty deque with nonzero capacity. -/
theorem c8_witness :
    (⟨2, ShrinkAt20Pct, 1, 0, 0, [5, 6]⟩ : Deque Int).Pop =
      ((default : Int), false, (⟨2, ShrinkAt20Pct, 1, 0, 0, [5, 6]⟩ : Deque Int)) ∧
    (⟨2, ShrinkAt20Pct, 1, 0, 0, [5, 6]⟩ : Deque Int).Shift =
      ((default : Int), false, (⟨2, ShrinkAt20Pct, 1, 0, 0, [5, 6]⟩ : Deque Int)) :=
  c8_pop_shift_on_empty Int _ rfl

/-- C9: Peek and PeekShift are side-effect-free and idempotent: the
    receiver they hand back is the unchanged input state, repeated calls
    return identical results, and length and capacity are unchanged. -/
theorem c9_peek_frame :
    ∀ (T : Type) [Inhabited T] (d : Deque T),
    (d.Peek).2.2 = d ∧ (d.PeekShift).2.2 = d ∧
    ((d.Peek).2.2).Peek = d.Peek ∧ ((d.PeekShift).2.2).PeekShift = d.PeekShift ∧
    ((d.Peek).2.2).Len = d.Len ∧ ((d.Peek).2.2).Cap = d.Cap := by
  intro T _ d
  have h1 : (d.Peek).2.2 = d := by unfold Deque.Peek; split <;> rfl
  have h2 : (d.PeekShift).2.2 = d := by unfold Deque.PeekShift; split <;> rfl
  exact ⟨h1, h2, by rw [h1], by rw [h2], by rw [h1], by rw [h1]⟩

/-- Witness for C9 on a concrete nonempty deque. -/
theorem c9_witness :
    ((⟨0, 0, 1, 0, 3, [30, 10, 20]⟩ : Deque Int).Peek).2.2 =
      (⟨0, 0, 1, 0, 3, [(30 : Int), 10, 20]⟩ : Deque Int) ∧
    ((⟨0, 0, 1, 0, 3, [30, 10, 20]⟩ : Deque Int).PeekShift).2.2 =
      (⟨0, 0, 1, 0, 3, [(30 : Int), 10, 20]⟩ : Deque Int) ∧
    (((⟨0, 0, 1, 0, 3, [30, 10, 20]⟩ : Deque Int).Peek).2.2).Peek =
      (⟨0, 0, 1, 0, 3, [(30 : Int), 10, 20]⟩ : Deque Int).Peek ∧
    (((⟨0, 0, 1, 0, 3, [30, 10, 20]⟩ : Deque Int).PeekShift).2.2).PeekShift =
      (⟨0, 0, 1, 0, 3, [(30 : Int), 10, 20]⟩ : Deque Int).PeekShift ∧
    (((⟨0, 0, 1, 0, 3, [30, 10, 20]⟩ : Deque Int).Peek).2.2).Len =
      (⟨0, 0, 1, 0, 3, [(30 : Int), 10, 20]⟩ : Deque Int).Len ∧
    (((⟨0, 0, 1, 0, 3, [30, 10, 20]⟩ : Deque Int).Peek).2.2).Cap =
      (⟨0, 0, 1, 0, 3, [(30 : Int), 10, 20]⟩ : Deque Int).Cap :=
  c9_peek_frame Int _

/-- Counterexample to C10 as stated: with a strictly negative Minsize the
    emptying removal does not resize at all, because the guard
    len > Minsize (0 > -1) makes shrink return early.  Concretely: policy
    ShrinkIfEmpty, Minsize = -1, adopted 1-element buffer; the Shift that
    brings the length to 0 leaves capacity 1, not 0. -/
theorem c10_counterexample :
    let d := Deque.WrapSlice (⟨-1, ShrinkIfEmpty, 0, 0, 0, []⟩ : Deque Int) [5] 1
    (d.Shift).1 = 5 ∧ (d.Shift).2.1 = true ∧ (d.Shift).2.2.Len = 0 ∧
    (d.Shift).2.2.Cap = 1 ∧ ¬((d.Shift).2.2.Cap = 0) := by
  decide

/-- C10 amended: if the shrink policy is ShrinkIfEmpty or ShrinkAt20Pct
    and Minsize is exactly 0 (still the zero value, never defaulted by
    grow), then the Pop or Shift that brings the length to 0 on a deque
    with nonzero capacity resizes the backing store to capacity 0,
    discarding the adopted buffer. -/
theorem c10_shrink_to_zero_when_minsize_unset :
    ∀ (T : Type) [Inhabited T] (d : Deque T),
    d.Minsize = 0 → (d.Shrink = ShrinkIfEmpty ∨ d.Shrink = ShrinkAt20Pct) →
    d.len = 1 → 0 < d.dat.length →
    (d.Pop).2.2.Cap = 0 ∧ (d.Shift).2.2.Cap = 0 := by
  intro T _ d hm hs hl hc
  have key : ∀ dd : Deque T, dd.Minsize = 0 →
      (dd.Shrink = ShrinkIfEmpty ∨ dd.Shrink = ShrinkAt20Pct) →
      dd.len = 0 → 0 < dd.dat.length → (dd.shrink).dat.length = 0 := by
    intro dd h1 h2 h3 h4
    unfold Deque.shrink
    simp only [ShrinkNever, ShrinkIfEmpty, ShrinkAt20Pct] at *
    split_ifs with g1 g2 g3 g4
    · omega
    · omega
    · omega
    · omega
    · rw [resize_dat_length, h1]; rfl
  constructor
  · unfold Deque.Pop
    rw [if_pos (by omega)]
    simp only [Deque.Cap, Nat.cast_eq_zero]
    exact key _ hm hs (by simp [hl]) hc
  · unfold Deque.Shift
    rw [if_pos (by omega)]
    simp only [Deque.Cap, Nat.cast_eq_zero]
    exact key _ hm hs (by simp [hl]) hc

/-- Witness for C10 amended: an adopted 1-element buffer with Minsize
    still 0 under ShrinkIfEmpty is discarded by the emptying Shift. -/
theorem c10_witness :
    ((⟨0, ShrinkIfEmpty, 0, 0, 1, [7]⟩ : Deque Int).Pop).2.2.Cap = 0 ∧
    ((⟨0, ShrinkIfEmpty, 0, 0, 1, [(7 : Int)]⟩ : Deque Int).Shift).2.2.Cap = 0 :=
  c10_shrink_to_zero_when_minsize_unset Int _ rfl (Or.inl rfl) rfl (by decide)

theorem rotAt_length {T : Type} (l : List T) (h : Nat) :
    (rotAt l h).length = l.length := by
  simp [rotAt]; omega

theorem rotAt_zero {T : Type} (l : List T) : rotAt l 0 = l := by
  simp [rotAt]

theorem toList_length {T : Type} (d : Deque T) (h : d.len.toNat ≤ d.dat.length) :
    d.toList.length = d.len.toNat := by
  simp [Deque.toList, rotAt]; omega

/-- Modular reduction for arguments below two turns. -/
theorem mod_two_turns (a c : Nat) (h : a < 2 * c) :
    a % c = if a < c then a else a - c := by
  split
  · exact Nat.mod_eq_of_lt (by omega)
  · rw [Nat.mod_eq_sub_mod (by omega), Nat.mod_eq_of_lt (by omega)]

theorem getD_take {T : Type} (l : List T) (n i : Nat) (d : T) (h : i < n) :
    (l.take n).getD i d = l.getD i d := by
  rw [List.getD_eq_getElem?_getD, List.getD_eq_getElem?_getD, List.getElem?_take_of_lt h]

theorem getD_drop {T : Type} (l : List T) (n i : Nat) (d : T) :
    (l.drop n).getD i d = l.getD (n + i) d := by
  rw [List.getD_eq_getElem?_getD, List.getD_eq_getElem?_getD, List.getElem?_drop]

/-- Reading the rotated list at i reads the original at (h + i) mod length. -/
theorem getD_rotAt {T : Type} (l : List T) (h i : Nat) (d : T)
    (hh : h < l.length) (hi : i < l.length) :
    (rotAt l h).getD i d = l.getD ((h + i) % l.length) d := by
  unfold rotAt
  rw [mod_two_turns _ _ (by omega)]
  by_cases hc : i < l.length - h
  · rw [List.getD_append _ _ _ _ (by simp; omega), getD_drop, if_pos (by omega)]
  · rw [List.getD_append_right _ _ _ _ (by simp; omega)]
    rw [getD_take _ _ _ _ (by simp; omega), if_neg (by omega)]
    congr 1
    simp
    omega

theorem resize_dat_eq {T : Type} [Inhabited T] (d : Deque T) (size : Int)
    (h0 : 0 ≤ d.head) (h1 : 0 ≤ d.len) (h2 : d.len ≤ size)
    (h3 : d.len.toNat ≤ d.dat.length)
    (h4 : 0 < d.len → d.head.toNat < d.dat.length) :
    (d.resize size).dat =
      d.toList ++ List.replicate (size.toNat - d.len.toNat) default := by
  unfold Deque.resize Deque.toList
  simp only []
  by_cases hl : 0 < d.len
  · rw [if_pos hl]
    obtain ⟨hn, ehn⟩ := Int.eq_ofNat_of_zero_le h0
    obtain ⟨ln, eln⟩ := Int.eq_ofNat_of_zero_le h1
    obtain ⟨sz, esz⟩ := Int.eq_ofNat_of_zero_le (h1.trans h2)
    rw [eln, esz] at h2
    rw [eln] at h3
    rw [ehn, eln] at h4
    rw [eln] at hl
    rw [ehn, eln, esz]
    simp only [Int.toNat_natCast] at h3 h4 ⊢
    have hln : 0 < ln := by omega
    have hc : hn < d.dat.length := h4 (by omega)
    have hls : ln ≤ sz := by omega
    have e1 : ((if (d.dat.length : Int) - (hn : Int) > (ln : Int)
        then ((hn : Int) + (ln : Int)) else (d.dat.length : Int)) - (hn : Int)).toNat
        = min ln (d.dat.length - hn) := by
      split_ifs <;> omega
    rw [e1]
    have e2 : (List.replicate sz (default : T)).length ⊓
        (List.take (ln ⊓ (d.dat.length - hn)) (List.drop hn d.dat)).length
        = ln ⊓ (d.dat.length - hn) := by
      simp only [List.length_replicate, List.length_take, List.length_drop]
      omega
    rw [e2]
    split_ifs with hB
    · -- wrapped second copy: count = cap - head < len
      have hk : ln ⊓ (d.dat.length - hn) = d.dat.length - hn := by omega
      have hlt : d.dat.length - hn < ln := by omega
      rw [hk]
      rw [show ((ln : Int) - ((d.dat.length - hn : Nat) : Int)).toNat
          = ln - (d.dat.length - hn) from by omega]
      rw [List.take_of_length_le (le_of_eq (List.length_drop hn d.dat))]
      have s2 : goCopy (List.replicate sz (default : T)) (List.drop hn d.dat)
          = List.drop hn d.dat ++ List.replicate (sz - (d.dat.length - hn)) default := by
        simp only [goCopy, List.length_replicate, List.length_drop, List.drop_replicate]
        rw [List.take_of_length_le (by rw [List.length_drop]; omega)]
      rw [s2]
      have s3 : List.take (d.dat.length - hn)
          (List.drop hn d.dat ++ List.replicate (sz - (d.dat.length - hn)) (default : T))
          = List.drop hn d.dat := by
        rw [List.take_append_eq_append_take,
          List.take_of_length_le (le_of_eq (List.length_drop hn d.dat)), List.length_drop]
        rw [show d.dat.length - hn - (d.dat.length - hn) = 0 from by omega]
        rw [List.take_zero, List.append_nil]
      rw [s3]
      have s4 : List.drop (d.dat.length - hn)
          (List.drop hn d.dat ++ List.replicate (sz - (d.dat.length - hn)) (default : T))
          = List.replicate (sz - (d.dat.length - hn)) default := by
        rw [List.drop_append_eq_append_drop,
          List.drop_eq_nil_of_le (le_of_eq (List.length_drop hn d.dat)), List.length_drop]
        rw [show d.dat.length - hn - (d.dat.length - hn) = 0 from by omega]
        rw [List.drop_zero, List.nil_append]
      rw [s4]
      have s5 : goCopy (List.replicate (sz - (d.dat.length - hn)) (default : T))
          (List.take (ln - (d.dat.length - hn)) d.dat)
          = List.take (ln - (d.dat.length - hn)) d.dat ++ List.replicate (sz - ln) default := by
        simp only [goCopy, List.length_replicate, List.length_take, List.drop_replicate]
        rw [List.take_take]
        rw [show (sz - (d.dat.length - hn)) ⊓ (ln - (d.dat.length - hn))
            = ln - (d.dat.length - hn) from by omega]
        rw [show sz - (d.dat.length - hn) - ((ln - (d.dat.length - hn)) ⊓ d.dat.length)
            = sz - ln from by omega]
      rw [s5]
      have s6 : List.take ln (rotAt d.dat hn)
          = List.drop hn d.dat ++ List.take (ln - (d.dat.length - hn)) d.dat := by
        simp only [rotAt]
        rw [List.take_append_eq_append_take,
          List.take_of_length_le (by rw [List.length_drop]; omega),
          List.take_take, List.length_drop]
        rw [show (ln - (d.dat.length - hn)) ⊓ hn = ln - (d.dat.length - hn) from by omega]
      rw [s6, List.append_assoc]
    · -- single copy: count = len
      have hk : ln ⊓ (d.dat.length - hn) = ln := by omega
      rw [hk]
      simp only [goCopy, List.length_replicate, List.length_take, List.length_drop,
        List.take_take, List.drop_replicate]
      rw [show sz ⊓ ln = ln from by omega]
      rw [show sz - ln ⊓ (d.dat.length - hn) = sz - ln from by omega]
      simp only [rotAt]
      rw [List.take_append_eq_append_take, List.length_drop]
      rw [show ln - (d.dat.length - hn) = 0 from by omega]
      rw [List.take_zero, List.append_nil]
  · have hl0 : d.len = 0 := by omega
    rw [if_neg hl]
    simp [hl0]

theorem resize_head {T : Type} [Inhabited T] (d : Deque T) (size : Int) :
    (d.resize size).head = 0 := rfl

theorem resize_len {T : Type} [Inhabited T] (d : Deque T) (size : Int) :
    (d.resize size).len = d.len := rfl

theorem resize_Minsize {T : Type} [Inhabited T] (d : Deque T) (size : Int) :
    (d.resize size).Minsize = d.Minsize := rfl

theorem resize_Shrink {T : Type} [Inhabited T] (d : Deque T) (size : Int) :
    (d.resize size).Shrink = d.Shrink := rfl

theorem resize_tail {T : Type} [Inhabited T] (d : Deque T) (size : Int) :
    (d.resize size).tail = (if d.len = 0 then size else d.len) - 1 := rfl

/-- Resize preserves well-formedness whenever the new size can hold the
    current length. -/
theorem resize_WF {T : Type} [Inhabited T] (d : Deque T) (size : Int)
    (hWF : WF d) (hsz : d.len ≤ size) : WF (d.resize size) := by
  obtain ⟨w0, w1, w2, w3, w4⟩ := hWF
  refine ⟨by rw [resize_head], by rw [resize_len]; exact w1, ?_, ?_, ?_⟩
  · rw [resize_len, resize_dat_length]
    omega
  · intro hcap
    rw [resize_dat_length] at hcap
    refine ⟨by rw [resize_head, resize_dat_length]; simpa using hcap, ?_⟩
    rw [resize_tail, resize_head, resize_len, resize_dat_length]
    simp only [Int.toNat_zero, Nat.zero_add]
    split_ifs with hz
    · rw [hz]
      rw [mod_two_turns _ _ (by omega), if_pos (by omega)]
      simp only [Int.toNat_zero]
      omega
    · have : 0 < d.len := by omega
      rw [mod_two_turns _ _ (by omega), if_neg (by omega)]
      omega
  · intro hcap
    rw [resize_dat_length] at hcap
    rw [resize_len]
    omega

/-- Resize preserves the logical content whenever the new size can hold
    the current length. -/
theorem resize_toList {T : Type} [Inhabited T] (d : Deque T) (size : Int)
    (h0 : 0 ≤ d.head) (h1 : 0 ≤ d.len) (h2 : d.len ≤ size)
    (h3 : d.len.toNat ≤ d.dat.length)
    (h4 : 0 < d.len → d.head.toNat < d.dat.length) :
    (d.resize size).toList = d.toList := by
  have key := resize_dat_eq d size h0 h1 h2 h3 h4
  conv_lhs => rw [Deque.toList]
  rw [key, resize_head, resize_len]
  simp only [Int.toNat_zero, rotAt_zero]
  rw [List.take_append_eq_append_take]
  rw [toList_length d h3]
  rw [show d.len.toNat - d.len.toNat = 0 from by omega]
  rw [List.take_zero, List.append_nil]
  exact List.take_of_length_le (le_of_eq (toList_length d h3))

/-- Advancing one step around the ring. -/
theorem ring_succ (x c : Nat) (hc : 0 < c) :
    ((x + c - 1) % c + 1) % c = x % c := by
  rw [Nat.mod_add_mod, show x + c - 1 + 1 = x + c from by omega, Nat.add_mod_right]

theorem push_len {T : Type} (d : Deque T) (v : T) : (d.push v).len = d.len + 1 := rfl

theorem push_head {T : Type} (d : Deque T) (v : T) : (d.push v).head = d.head := rfl

theorem push_Minsize {T : Type} (d : Deque T) (v : T) : (d.push v).Minsize = d.Minsize := rfl

theorem push_Shrink {T : Type} (d : Deque T) (v : T) : (d.push v).Shrink = d.Shrink := rfl

theorem push_dat_length {T : Type} (d : Deque T) (v : T) :
    (d.push v).dat.length = d.dat.length := by
  show (d.dat.set _ v).length = d.dat.length
  exact List.length_set d.dat _ v

/-- The tail cursor after push, resolved to ring arithmetic. -/
theorem push_tail {T : Type} (d : Deque T) (v : T) (t c : Nat)
    (htail : d.tail = (t : Int)) (hdl : d.dat.length = c) (ht : t < c) :
    (d.push v).tail = (((t + 1) % c : Nat) : Int) := by
  show (if d.tail + 1 = (d.dat.length : Int) then 0 else d.tail + 1) = _
  rw [htail, hdl, mod_two_turns _ _ (by omega)]
  split_ifs with h1 h2 <;> push_cast <;> omega

/-- Two lists of equal length agreeing on getD at one default are equal. -/
theorem eq_of_getD {T : Type} (d0 : T) (l1 l2 : List T)
    (hlen : l1.length = l2.length)
    (h : ∀ i, i < l1.length → l1.getD i d0 = l2.getD i d0) : l1 = l2 := by
  apply List.ext_getElem hlen
  intro i h1 h2
  have hi := h i h1
  rwa [List.getD_eq_getElem _ _ h1, List.getD_eq_getElem _ _ h2] at hi

/-- Distinct offsets below the capacity land on distinct ring slots. -/
theorem ring_index_ne (hd i j c : Nat) (hc : hd < c) (hij : i < j) (hj : j < c) :
    (hd + i) % c ≠ (hd + j) % c := by
  rw [mod_two_turns _ _ (by omega), mod_two_turns _ _ (by omega)]
  split_ifs <;> omega

theorem toList_getD {T : Type} (d : Deque T) (d0 : T)
    (hh : d.head.toNat < d.dat.length) (hlc : d.len.toNat ≤ d.dat.length)
    (i : Nat) (hi : i < d.len.toNat) :
    d.toList.getD i d0 = d.dat.getD ((d.head.toNat + i) % d.dat.length) d0 := by
  unfold Deque.toList
  rw [getD_take _ _ _ _ hi, getD_rotAt _ _ _ _ hh (by omega)]

theorem getD_set_ne {T : Type} (l : List T) (i j : Nat) (v d : T) (h : i ≠ j) :
    (l.set i v).getD j d = l.getD j d := by
  rw [List.getD_eq_getElem?_getD, List.getD_eq_getElem?_getD, List.getElem?_set_ne h]

theorem getD_set_self {T : Type} (l : List T) (i : Nat) (v d : T) (h : i < l.length) :
    (l.set i v).getD i d = v := by
  rw [List.getD_eq_getElem?_getD, List.getElem?_set_self h]
  rfl

/-- Push appends the value at the logical end and preserves
    well-formedness, provided capacity is available. -/
theorem push_spec {T : Type} [Inhabited T] (d : Deque T) (v : T)
    (hWF : WF d) (hlt : d.len < (d.dat.length : Int)) :
    WF (d.push v) ∧ (d.push v).toList = d.toList ++ [v] := by
  obtain ⟨w0, w1, w2, w3, w4⟩ := hWF
  have hc : 0 < d.dat.length := by omega
  obtain ⟨hhn, htail⟩ := w3 hc
  obtain ⟨hn, ehn⟩ := Int.eq_ofNat_of_zero_le w0
  obtain ⟨ln, eln⟩ := Int.eq_ofNat_of_zero_le w1
  have hn_lt : hn < d.dat.length := by rw [ehn] at hhn; simpa using hhn
  have ln_lt : ln < d.dat.length := by rw [eln] at hlt; exact_mod_cast hlt
  have htail' : d.tail = (((hn + ln + d.dat.length - 1) % d.dat.length : Nat) : Int) := by
    rw [htail, ehn, eln]; simp
  have htp := push_tail d v _ d.dat.length htail' rfl (Nat.mod_lt _ hc)
  rw [ring_succ _ _ hc] at htp
  have hdat : (d.push v).dat = d.dat.set ((hn + ln) % d.dat.length) v := by
    have : (d.push v).dat = d.dat.set ((d.push v).tail).toNat v := rfl
    rw [this, htp]
    simp only [Int.toNat_natCast]
  have hlen1 : ((d.push v).len).toNat = ln + 1 := by
    rw [push_len, eln]; omega
  constructor
  · refine ⟨?_, ?_, ?_, ?_, ?_⟩
    · rw [push_head]; exact w0
    · rw [push_len]; omega
    · rw [push_len, push_dat_length]; omega
    · intro hcap
      constructor
      · rw [push_head, push_dat_length]; exact hhn
      · rw [htp, push_head, push_len, push_dat_length, ehn, eln]
        rw [show ((ln : Int) + 1).toNat = ln + 1 from by omega]
        simp only [Int.toNat_natCast]
        congr 1
        rw [show hn + (ln + 1) + d.dat.length - 1 = (hn + ln) + d.dat.length from by omega,
          Nat.add_mod_right]
    · intro hcap
      rw [push_dat_length] at hcap
      omega
  · apply eq_of_getD default
    · rw [toList_length _ (by rw [hlen1, push_dat_length]; omega), hlen1,
        List.length_append, toList_length d (by omega), eln]
      simp
    · intro i hi
      rw [toList_length _ (by rw [hlen1, push_dat_length]; omega), hlen1] at hi
      rw [toList_getD _ _ (by rw [push_head, push_dat_length]; exact hhn)
        (by rw [hlen1, push_dat_length]; omega) i (by rw [hlen1]; omega)]
      rw [push_head, push_dat_length, ehn, Int.toNat_natCast, hdat]
      by_cases hiln : i < ln
      · rw [getD_set_ne _ _ _ _ _ (Ne.symm (ring_index_ne hn i ln _ hn_lt hiln ln_lt))]
        rw [List.getD_append _ _ _ _ (by rw [toList_length d (by omega)]; omega)]
        rw [toList_getD d default hhn (by omega) i (by omega)]
        rw [ehn]
        simp only [Int.toNat_natCast]
      · have hieq : i = ln := by omega
        subst hieq
        rw [getD_set_self _ _ _ _ (Nat.mod_lt _ hc)]
        rw [List.getD_append_right _ _ _ _ (by rw [toList_length d (by omega)]; omega)]
        rw [show i - d.toList.length = 0 from by rw [toList_length d (by omega)]; omega]
        simp

theorem unshift_len {T : Type} (d : Deque T) (v : T) : (d.unshift v).len = d.len + 1 := rfl

theorem unshift_tail {T : Type} (d : Deque T) (v : T) : (d.unshift v).tail = d.tail := rfl

theorem unshift_Minsize {T : Type} (d : Deque T) (v : T) : (d.unshift v).Minsize = d.Minsize := rfl

theorem unshift_Shrink {T : Type} (d : Deque T) (v : T) : (d.unshift v).Shrink = d.Shrink := rfl

theorem unshift_dat_length {T : Type} (d : Deque T) (v : T) :
    (d.unshift v).dat.length = d.dat.length := by
  show (d.dat.set _ v).length = d.dat.length
  exact List.length_set d.dat _ v

/-- The head cursor after unshift, resolved to ring arithmetic. -/
theorem unshift_head {T : Type} (d : Deque T) (v : T) (hn c : Nat)
    (hhead : d.head = (hn : Int)) (hdl : d.dat.length = c) (hh : hn < c) :
    (d.unshift v).head = (((hn + c - 1) % c : Nat) : Int) := by
  show (if d.head = 0 then (d.dat.length : Int) else d.head) - 1 = _
  rw [hhead, hdl, mod_two_turns _ _ (by omega)]
  split_ifs with h1 h2 <;> push_cast at h1 ⊢ <;> omega

/-- Unshift prepends the value at the logical front and preserves
    well-formedness, provided capacity is available. -/
theorem unshift_spec {T : Type} [Inhabited T] (d : Deque T) (v : T)
    (hWF : WF d) (hlt : d.len < (d.dat.length : Int)) :
    WF (d.unshift v) ∧ (d.unshift v).toList = v :: d.toList := by
  obtain ⟨w0, w1, w2, w3, w4⟩ := hWF
  have hc : 0 < d.dat.length := by omega
  obtain ⟨hhn, htail⟩ := w3 hc
  obtain ⟨hn, ehn⟩ := Int.eq_ofNat_of_zero_le w0
  obtain ⟨ln, eln⟩ := Int.eq_ofNat_of_zero_le w1
  have hn_lt : hn < d.dat.length := by rw [ehn] at hhn; simpa using hhn
  have ln_lt : ln < d.dat.length := by rw [eln] at hlt; exact_mod_cast hlt
  have htail' : d.tail = (((hn + ln + d.dat.length - 1) % d.dat.length : Nat) : Int) := by
    rw [htail, ehn, eln]; simp
  have hhd := unshift_head d v hn d.dat.length ehn rfl hn_lt
  have hdat : (d.unshift v).dat
      = d.dat.set ((hn + d.dat.length - 1) % d.dat.length) v := by
    have : (d.unshift v).dat = d.dat.set ((d.unshift v).head).toNat v := rfl
    rw [this, hhd]
    simp only [Int.toNat_natCast]
  have hlen1 : ((d.unshift v).len).toNat = ln + 1 := by
    rw [unshift_len, eln]; omega
  constructor
  · refine ⟨?_, ?_, ?_, ?_, ?_⟩
    · rw [hhd]; exact Int.natCast_nonneg _
    · rw [unshift_len]; omega
    · rw [unshift_len, unshift_dat_length]; omega
    · intro hcap
      constructor
      · rw [hhd, unshift_dat_length]
        simp only [Int.toNat_natCast]
        exact Nat.mod_lt _ hc
      · rw [unshift_tail, unshift_len, unshift_dat_length, htail', hhd, eln]
        rw [show ((ln : Int) + 1).toNat = ln + 1 from by omega]
        simp only [Int.toNat_natCast]
        congr 1
        rw [show (hn + d.dat.length - 1) % d.dat.length + (ln + 1) + d.dat.length - 1
            = (hn + d.dat.length - 1) % d.dat.length + (ln + d.dat.length) from by omega]
        rw [Nat.mod_add_mod]
        rw [show hn + d.dat.length - 1 + (ln + d.dat.length)
            = (hn + ln + d.dat.length - 1) + d.dat.length from by omega]
        rw [Nat.add_mod_right]
    · intro hcap
      rw [unshift_dat_length] at hcap
      omega
  · apply eq_of_getD default
    · rw [toList_length _ (by rw [hlen1, unshift_dat_length]; omega), hlen1,
        List.length_cons, toList_length d (by omega), eln]
      simp
    · intro i hi
      rw [toList_length _ (by rw [hlen1, unshift_dat_length]; omega), hlen1] at hi
      have hub : (d.unshift v).head.toNat < (d.unshift v).dat.length := by
        rw [hhd, unshift_dat_length]
        simp only [Int.toNat_natCast]
        exact Nat.mod_lt _ hc
      rw [toList_getD _ _ hub
        (by rw [hlen1, unshift_dat_length]; omega) i (by rw [hlen1]; omega)]
      rw [hhd, unshift_dat_length, hdat]
      simp only [Int.toNat_natCast]
      match i, hi with
      | 0, _ =>
        rw [Nat.add_zero, Nat.mod_eq_of_lt (Nat.mod_lt _ hc)]
        rw [getD_set_self _ _ _ _ (Nat.mod_lt _ hc)]
        simp
      | j + 1, hi =>
        have hidx : ((hn + d.dat.length - 1) % d.dat.length + (j + 1)) % d.dat.length
            = (hn + j) % d.dat.length := by
          rw [Nat.mod_add_mod,
            show hn + d.dat.length - 1 + (j + 1) = (hn + j) + d.dat.length from by omega,
            Nat.add_mod_right]
        rw [hidx]
        have hne : (hn + d.dat.length - 1) % d.dat.length ≠ (hn + j) % d.dat.length := by
          have := ring_index_ne hn j (d.dat.length - 1) d.dat.length hn_lt (by omega) (by omega)
          rw [show hn + (d.dat.length - 1) = hn + d.dat.length - 1 from by omega] at this
          exact this.symm
        rw [getD_set_ne _ _ _ _ _ hne]
        rw [List.getD_cons_succ]
        rw [toList_getD d default hhn (by omega) j (by omega)]
        rw [ehn]
        simp only [Int.toNat_natCast]

/-- Shrink preserves well-formedness, logical content and length. -/
theorem shrink_spec {T : Type} [Inhabited T] (d : Deque T) (hWF : WF d) :
    WF d.shrink ∧ d.shrink.toList = d.toList ∧ d.shrink.len = d.len ∧
    d.shrink.Shrink = d.Shrink ∧ d.shrink.Minsize = d.Minsize := by
  unfold Deque.shrink
  split_ifs with h1 h2 h3 h4
  · exact ⟨hWF, rfl, rfl, rfl, rfl⟩
  · exact ⟨hWF, rfl, rfl, rfl, rfl⟩
  · exact ⟨hWF, rfl, rfl, rfl, rfl⟩
  · exact ⟨hWF, rfl, rfl, rfl, rfl⟩
  · obtain ⟨w0, w1, w2, w3, w4⟩ := hWF
    have hmin : d.len ≤ d.Minsize := by
      push_neg at h2
      exact h2.1
    refine ⟨resize_WF d _ ⟨w0, w1, w2, w3, w4⟩ hmin,
      resize_toList d _ w0 w1 hmin (by omega) (fun hl => (w3 (by omega)).1),
      resize_len d _, resize_Shrink d _, resize_Minsize d _⟩

/-- Shift removes and returns the logical front element, preserving
    well-formedness. -/
theorem Shift_spec {T : Type} [Inhabited T] (d : Deque T) (v : T) (l : List T)
    (hWF : WF d) (htl : d.toList = v :: l) :
    (d.Shift).1 = v ∧ (d.Shift).2.1 = true ∧ WF (d.Shift).2.2 ∧
    (d.Shift).2.2.toList = l := by
  obtain ⟨w0, w1, w2, w3, w4⟩ := hWF
  have hlc : d.len.toNat ≤ d.dat.length := by omega
  have hlen : d.len.toNat = l.length + 1 := by
    have hL := toList_length d hlc
    rw [htl] at hL
    simpa using hL.symm
  have hl0 : 0 < d.len := by omega
  have hc : 0 < d.dat.length := by omega
  obtain ⟨hhn, htail⟩ := w3 hc
  obtain ⟨hn, ehn⟩ := Int.eq_ofNat_of_zero_le w0
  obtain ⟨ln, eln⟩ := Int.eq_ofNat_of_zero_le w1
  have hn_lt : hn < d.dat.length := by rw [ehn] at hhn; simpa using hhn
  have hln_le : ln ≤ d.dat.length := by omega
  have hln_pos : 0 < ln := by omega
  have htail' : d.tail = (((hn + ln + d.dat.length - 1) % d.dat.length : Nat) : Int) := by
    rw [htail, ehn, eln]; simp
  have hv : d.dat.getD d.head.toNat default = v := by
    have h0 := toList_getD d default hhn hlc 0 (by omega)
    rw [htl] at h0
    simp only [List.getD_cons_zero] at h0
    rw [h0, Nat.add_zero, Nat.mod_eq_of_lt hhn]
  have hh1 : (if d.head + 1 = ((d.dat.length : Nat) : Int) then 0 else d.head + 1)
      = (((hn + 1) % d.dat.length : Nat) : Int) := by
    rw [ehn, mod_two_turns _ _ (by omega)]
    split_ifs with g1 g2 <;> push_cast at g1 ⊢ <;> omega
  unfold Deque.Shift
  rw [if_pos hl0]
  simp only []
  rw [hv, hh1]
  refine ⟨rfl, by trivial, ?_⟩
  have hWF1 : WF { d with len := d.len - 1, head := (((hn + 1) % d.dat.length : Nat) : Int) } := by
    refine ⟨Int.natCast_nonneg _, ?_, ?_, ?_, ?_⟩
    · show (0 : Int) ≤ d.len - 1
      omega
    · show d.len - 1 ≤ (d.dat.length : Int)
      omega
    · intro hcap
      simp only [Int.toNat_natCast]
      refine ⟨Nat.mod_lt _ hc, ?_⟩
      show d.tail = _
      rw [htail', eln]
      congr 1
      rw [show ((ln : Int) - 1).toNat = ln - 1 from by omega]
      rw [show (hn + 1) % d.dat.length + (ln - 1) + d.dat.length - 1
          = (hn + 1) % d.dat.length + (ln - 1 + d.dat.length - 1) from by omega]
      rw [Nat.mod_add_mod]
      rw [show hn + 1 + (ln - 1 + d.dat.length - 1) = hn + ln + d.dat.length - 1 from by omega]
    · intro hcap0
      have : d.dat.length = 0 := hcap0
      omega
  have hto1 : Deque.toList { d with len := d.len - 1, head := (((hn + 1) % d.dat.length : Nat) : Int) } = l := by
    apply eq_of_getD default
    · rw [toList_length _ (by simp; omega)]
      simp
      omega
    · intro j hj
      rw [toList_length _ (by simp; omega)] at hj
      simp only [Int.toNat_natCast] at hj ⊢
      rw [toList_getD _ default (by simp only [Int.toNat_natCast]; exact Nat.mod_lt _ hc)
        (by simp; omega) j (by simp; omega)]
      simp only [Int.toNat_natCast]
      rw [Nat.mod_add_mod]
      rw [show hn + 1 + j = hn + (j + 1) from by omega]
      have hback := toList_getD d default hhn hlc (j + 1) (by omega)
      rw [htl, ehn] at hback
      simp only [List.getD_cons_succ, Int.toNat_natCast] at hback
      exact hback.symm
  obtain ⟨s1, s2, _, _, _⟩ := shrink_spec _ hWF1
  exact ⟨s1, by rw [s2, hto1]⟩

/-- Pop removes and returns the logical back element, preserving
    well-formedness. -/
theorem Pop_spec {T : Type} [Inhabited T] (d : Deque T) (v : T) (l : List T)
    (hWF : WF d) (htl : d.toList = l ++ [v]) :
    (d.Pop).1 = v ∧ (d.Pop).2.1 = true ∧ WF (d.Pop).2.2 ∧
    (d.Pop).2.2.toList = l := by
  obtain ⟨w0, w1, w2, w3, w4⟩ := hWF
  have hlc : d.len.toNat ≤ d.dat.length := by omega
  have hlen : d.len.toNat = l.length + 1 := by
    have hL := toList_length d hlc
    rw [htl] at hL
    simpa using hL.symm
  have hl0 : 0 < d.len := by omega
  have hc : 0 < d.dat.length := by omega
  obtain ⟨hhn, htail⟩ := w3 hc
  obtain ⟨hn, ehn⟩ := Int.eq_ofNat_of_zero_le w0
  obtain ⟨ln, eln⟩ := Int.eq_ofNat_of_zero_le w1
  have hn_lt : hn < d.dat.length := by rw [ehn] at hhn; simpa using hhn
  have hln_le : ln ≤ d.dat.length := by omega
  have hln_pos : 0 < ln := by omega
  have htail' : d.tail = (((hn + ln + d.dat.length - 1) % d.dat.length : Nat) : Int) := by
    rw [htail, ehn, eln]; simp
  have hv : d.dat.getD d.tail.toNat default = v := by
    have h0 := toList_getD d default hhn hlc (ln - 1) (by omega)
    rw [htl, ehn] at h0
    rw [List.getD_append_right _ _ _ _ (by omega)] at h0
    rw [show ln - 1 - l.length = 0 from by omega] at h0
    simp only [List.getD_cons_zero, Int.toNat_natCast] at h0
    rw [htail', Int.toNat_natCast]
    rw [show (hn + ln + d.dat.length - 1) = (hn + (ln - 1)) + d.dat.length from by omega]
    rw [Nat.add_mod_right]
    exact h0.symm
  have ht1 : (if d.tail = 0 then ((d.dat.length : Nat) : Int) else d.tail) - 1
      = ((((hn + ln + d.dat.length - 1) % d.dat.length + d.dat.length - 1)
          % d.dat.length : Nat) : Int) := by
    rw [htail']
    rw [mod_two_turns ((hn + ln + d.dat.length - 1) % d.dat.length + d.dat.length - 1)
      _ (by have := Nat.mod_lt (hn + ln + d.dat.length - 1) hc; omega)]
    have hm := Nat.mod_lt (hn + ln + d.dat.length - 1) hc
    split_ifs with g1 g2 <;> push_cast at g1 ⊢ <;> omega
  unfold Deque.Pop
  rw [if_pos hl0]
  simp only []
  rw [hv, ht1]
  refine ⟨rfl, by trivial, ?_⟩
  have hWF1 : WF { d with len := d.len - 1, tail := ((((hn + ln + d.dat.length - 1) % d.dat.length + d.dat.length - 1) % d.dat.length : Nat) : Int) } := by
    refine ⟨w0, ?_, ?_, ?_, ?_⟩
    · show (0 : Int) ≤ d.len - 1
      omega
    · show d.len - 1 ≤ (d.dat.length : Int)
      omega
    · intro hcap
      refine ⟨hhn, ?_⟩
      show ((((hn + ln + d.dat.length - 1) % d.dat.length + d.dat.length - 1)
          % d.dat.length : Nat) : Int) = _
      rw [eln]
      congr 1
      rw [ehn]
      simp only [Int.toNat_natCast]
      rw [show ((ln : Int) - 1).toNat = ln - 1 from by omega]
      rw [show (hn + ln + d.dat.length - 1) % d.dat.length + d.dat.length - 1
          = (hn + ln + d.dat.length - 1) % d.dat.length + (d.dat.length - 1) from by omega]
      rw [Nat.mod_add_mod]
      rw [show hn + ln + d.dat.length - 1 + (d.dat.length - 1)
          = (hn + (ln - 1) + d.dat.length - 1) + d.dat.length from by omega]
      rw [Nat.add_mod_right]
    · intro hcap0
      have : d.dat.length = 0 := hcap0
      omega
  have hto1 : Deque.toList { d with len := d.len - 1, tail := ((((hn + ln + d.dat.length - 1) % d.dat.length + d.dat.length - 1) % d.dat.length : Nat) : Int) } = l := by
    show (rotAt d.dat d.head.toNat).take (d.len - 1).toNat = l
    rw [show ((d.len : Int) - 1).toNat = ln - 1 from by omega]
    rw [show ln - 1 = min (ln - 1) d.len.toNat from by omega]
    rw [← List.take_take]
    have : (rotAt d.dat d.head.toNat).take d.len.toNat = d.toList := rfl
    rw [this, htl]
    rw [List.take_append_eq_append_take]
    rw [List.take_of_length_le (by omega)]
    rw [show ln - 1 - l.length = 0 from by omega]
    rw [List.take_zero, List.append_nil]
  obtain ⟨s1, s2, _, _, _⟩ := shrink_spec _ hWF1
  exact ⟨s1, by rw [s2, hto1]⟩

/-- The doubling loop multiplies the starting size by a power of two. -/
theorem growLoopAux_pow (fuel size need : Nat) :
    ∃ k, growLoopAux fuel size need = size * 2 ^ k := by
  induction fuel generalizing size with
  | zero => exact ⟨0, by simp [growLoopAux]⟩
  | succ fuel ih =>
    unfold growLoopAux
    split_ifs with h
    · obtain ⟨k, hk⟩ := ih (size * 2)
      exact ⟨k + 1, by rw [hk]; ring⟩
    · exact ⟨0, by simp⟩

/-- With enough fuel, the doubling loop reaches the needed size. -/
theorem growLoopAux_ge (fuel size need : Nat) (hs : 0 < size)
    (hf : need ≤ size * 2 ^ fuel) : need ≤ growLoopAux fuel size need := by
  induction fuel generalizing size with
  | zero =>
    simpa [growLoopAux] using hf
  | succ fuel ih =>
    unfold growLoopAux
    split_ifs with h
    · exact ih (size * 2) (by omega) (by have : size * 2 ^ (fuel + 1) = size * 2 * 2 ^ fuel := by ring
                                         omega)
    · omega

theorem growLoop_ge (size need : Nat) (hs : 0 < size) : need ≤ growLoop size need := by
  apply growLoopAux_ge _ _ _ hs
  calc need ≤ 2 ^ need := le_of_lt (Nat.lt_two_pow need)
    _ ≤ size * 2 ^ need := Nat.le_mul_of_pos_left _ hs

theorem growLoop_pow (size need : Nat) : ∃ k, growLoop size need = size * 2 ^ k :=
  growLoopAux_pow need size need

/-- Grow preserves well-formedness and content, and guarantees room for
    the requested number of additional elements. -/
theorem grow_spec {T : Type} [Inhabited T] (d : Deque T) (add : Int)
    (hWF : WF d) (_hadd : 0 ≤ add) :
    WF (d.grow add) ∧ (d.grow add).toList = d.toList ∧
    (d.grow add).len = d.len ∧ (d.grow add).Shrink = d.Shrink ∧
    d.len + add ≤ ((d.grow add).dat.length : Int) := by
  obtain ⟨w0, w1, w2, w3, w4⟩ := hWF
  unfold Deque.grow
  by_cases hov : d.len + add > (d.dat.length : Int)
  · rw [if_pos hov]
    simp only []
    have hsz0pos : 0 < (if d.dat.length = 0
        then (if d.Minsize ≤ 0 then DefaultSize else d.Minsize).toNat
        else d.dat.length) := by
      split_ifs with g1 g2
      · simp [DefaultSize]
      · omega
      · omega
    have hge := growLoop_ge _ (d.len + add).toNat hsz0pos
    have hWFm : WF ({ d with Minsize := if d.Minsize ≤ 0 then DefaultSize else d.Minsize } : Deque T) :=
      ⟨w0, w1, w2, w3, w4⟩
    have hsz : d.len ≤ ((growLoop (if d.dat.length = 0
        then (if d.Minsize ≤ 0 then DefaultSize else d.Minsize).toNat
        else d.dat.length) (d.len + add).toNat : Nat) : Int) := by omega
    refine ⟨resize_WF _ _ hWFm hsz, ?_, resize_len _ _, resize_Shrink _ _, ?_⟩
    · exact resize_toList _ _ w0 w1 hsz (by show d.len.toNat ≤ d.dat.length; omega)
        (fun hl => (w3 (by have h6 : 0 < d.len := hl; omega)).1)
    · rw [resize_dat_length]
      omega
  · rw [if_neg hov]
    exact ⟨⟨w0, w1, w2, w3, w4⟩, rfl, rfl, rfl, by omega⟩

/-- Folding push over a value list appends the values in order, given
    sufficient capacity. -/
theorem pushes_spec {T : Type} [Inhabited T] (vs : List T) : ∀ (d : Deque T),
    WF d → d.len + vs.length ≤ (d.dat.length : Int) →
    WF (vs.foldl Deque.push d) ∧
    (vs.foldl Deque.push d).toList = d.toList ++ vs ∧
    (vs.foldl Deque.push d).len = d.len + vs.length ∧
    (vs.foldl Deque.push d).dat.length = d.dat.length := by
  induction vs with
  | nil =>
    intro d hWF hcap
    exact ⟨hWF, by simp, by simp, rfl⟩
  | cons v vs ih =>
    intro d hWF hcap
    simp only [List.foldl_cons, List.length_cons] at *
    obtain ⟨hWF1, hto1⟩ := push_spec d v hWF (by push_cast at hcap; omega)
    obtain ⟨ihWF, ihto, ihlen, ihdat⟩ := ih (d.push v) hWF1
      (by rw [push_len, push_dat_length]; push_cast at hcap ⊢; omega)
    refine ⟨ihWF, ?_, ?_, ?_⟩
    · rw [ihto, hto1]
      simp
    · rw [ihlen, push_len]
      push_cast
      ring
    · rw [ihdat, push_dat_length]

/-- Folding unshift over a value list prepends the values in reverse
    order, given sufficient capacity. -/
theorem unshifts_spec {T : Type} [Inhabited T] (vs : List T) : ∀ (d : Deque T),
    WF d → d.len + vs.length ≤ (d.dat.length : Int) →
    WF (vs.foldl Deque.unshift d) ∧
    (vs.foldl Deque.unshift d).toList = vs.reverse ++ d.toList ∧
    (vs.foldl Deque.unshift d).len = d.len + vs.length ∧
    (vs.foldl Deque.unshift d).dat.length = d.dat.length := by
  induction vs with
  | nil =>
    intro d hWF hcap
    exact ⟨hWF, by simp, by simp, rfl⟩
  | cons v vs ih =>
    intro d hWF hcap
    simp only [List.foldl_cons, List.length_cons] at *
    obtain ⟨hWF1, hto1⟩ := unshift_spec d v hWF (by push_cast at hcap; omega)
    obtain ⟨ihWF, ihto, ihlen, ihdat⟩ := ih (d.unshift v) hWF1
      (by rw [unshift_len, unshift_dat_length]; push_cast at hcap ⊢; omega)
    refine ⟨ihWF, ?_, ?_, ?_⟩
    · rw [ihto, hto1]
      simp
    · rw [ihlen, unshift_len]
      push_cast
      ring
    · rw [ihdat, unshift_dat_length]

/-- Push (variadic) appends the values in order and preserves
    well-formedness. -/
theorem Push_spec {T : Type} [Inhabited T] (d : Deque T) (vs : List T)
    (hWF : WF d) :
    WF (d.Push vs) ∧ (d.Push vs).toList = d.toList ++ vs := by
  obtain ⟨gWF, gto, glen, _, gcap⟩ := grow_spec d (vs.length : Int) hWF (by positivity)
  obtain ⟨pWF, pto, _, _⟩ := pushes_spec vs (d.grow (vs.length : Int)) gWF (by omega)
  exact ⟨pWF, by rw [Deque.Push] at *; rw [pto, gto]⟩

/-- Unshift (variadic) prepends the values in reverse order and preserves
    well-formedness. -/
theorem Unshift_spec {T : Type} [Inhabited T] (d : Deque T) (vs : List T)
    (hWF : WF d) :
    WF (d.Unshift vs) ∧ (d.Unshift vs).toList = vs.reverse ++ d.toList := by
  obtain ⟨gWF, gto, glen, _, gcap⟩ := grow_spec d (vs.length : Int) hWF (by positivity)
  obtain ⟨pWF, pto, _, _⟩ := unshifts_spec vs (d.grow (vs.length : Int)) gWF (by omega)
  exact ⟨pWF, by rw [Deque.Unshift] at *; rw [pto, gto]⟩

/-- Draining a well-formed deque by Shift returns its logical content in
    order, each with ok = true. -/
theorem drainShift_spec {T : Type} [Inhabited T] (l : List T) : ∀ (d : Deque T),
    WF d → d.toList = l →
    drainShift l.length d = l.map (fun v => (v, true)) := by
  induction l with
  | nil => intro d _ _; rfl
  | cons v l ih =>
    intro d hWF htl
    obtain ⟨h1, h2, h3, h4⟩ := Shift_spec d v l hWF htl
    show (_, _) :: _ = _
    rw [List.map_cons, h1, h2]
    exact congrArg _ (ih _ h3 h4)

/-- Draining a well-formed deque by Pop returns its logical content in
    reverse order, each with ok = true. -/
theorem drainPop_spec {T : Type} [Inhabited T] (l : List T) : ∀ (d : Deque T),
    WF d → d.toList = l →
    drainPop l.length d = l.reverse.map (fun v => (v, true)) := by
  induction l using List.reverseRecOn with
  | nil => intro d _ _; rfl
  | append_singleton l v ih =>
    intro d hWF htl
    obtain ⟨h1, h2, h3, h4⟩ := Pop_spec d v l hWF htl
    rw [List.length_append, List.length_singleton]
    show (_, _) :: _ = _
    rw [List.reverse_append]
    simp only [List.reverse_singleton, List.singleton_append, List.map_cons]
    rw [h1, h2]
    exact congrArg _ (ih _ h3 h4)

/-- C2: FIFO in both directions. -/
theorem c2_fifo_push_shift_unshift_pop :
    ∀ (T : Type) [Inhabited T] (m s : Int) (vs : List T),
    drainShift vs.length (Deque.Push (⟨m, s, 0, 0, 0, []⟩ : Deque T) vs)
      = vs.map (fun v => (v, true)) ∧
    drainPop vs.length (Deque.Unshift (⟨m, s, 0, 0, 0, []⟩ : Deque T) vs)
      = vs.map (fun v => (v, true)) := by
  intro T _ m s vs
  have hWF0 : WF (⟨m, s, 0, 0, 0, []⟩ : Deque T) := by
    refine ⟨le_refl 0, le_refl 0, by simp, ?_, fun _ => rfl⟩
    intro h
    simp at h
  have hto0 : (⟨m, s, 0, 0, 0, ([] : List T)⟩ : Deque T).toList = [] := rfl
  constructor
  · obtain ⟨pWF, pto⟩ := Push_spec _ vs hWF0
    have hto : (Deque.Push (⟨m, s, 0, 0, 0, []⟩ : Deque T) vs).toList = vs := by
      rw [pto, hto0]
      simp
    exact drainShift_spec vs _ pWF hto
  · obtain ⟨uWF, uto⟩ := Unshift_spec _ vs hWF0
    have hto : (Deque.Unshift (⟨m, s, 0, 0, 0, []⟩ : Deque T) vs).toList = vs.reverse := by
      rw [uto, hto0]
      simp
    have hdr := drainPop_spec vs.reverse _ uWF hto
    rw [List.length_reverse, List.reverse_reverse] at hdr
    exact hdr

/-- Witness for C2 at a concrete value sequence. -/
theorem c2_witness :
    drainShift 3 (Deque.Push (⟨0, 0, 0, 0, 0, []⟩ : Deque Int) [4, 5, 6])
      = [(4, true), (5, true), (6, true)] ∧
    drainPop 3 (Deque.Unshift (⟨0, 0, 0, 0, 0, []⟩ : Deque Int) [4, 5, 6])
      = [(4, true), (5, true), (6, true)] :=
  c2_fifo_push_shift_unshift_pop Int 0 0 [4, 5, 6]

/-- For a deque whose head is renormalized to 0, the slice of the backing
    store up to len is exactly the logical content. -/
theorem slice_head_zero {T : Type} [Inhabited T] (e : Deque T) (he : e.head = 0) :
    e.dat.take e.len.toNat = e.toList := by
  unfold Deque.toList
  rw [he]
  simp [rotAt_zero]

/-- C7: ToSlice returns exactly the logical head-to-tail content, leaves
    length, capacity and content unchanged, returns the empty sequence on
    an empty deque, and a subsequent drain by Shift yields the same
    sequence. -/
theorem c7_toslice_linearizes :
    ∀ (T : Type) [Inhabited T] (d : Deque T), WF d →
    (d.len = 0 → d.ToSlice = ([], d)) ∧
    (d.ToSlice).1 = d.toList ∧
    WF (d.ToSlice).2 ∧
    (d.ToSlice).2.toList = d.toList ∧
    (d.ToSlice).2.len = d.len ∧
    (d.ToSlice).2.dat.length = d.dat.length ∧
    drainShift d.toList.length (d.ToSlice).2 = d.toList.map (fun v => (v, true)) := by
  intro T _ d hWF
  have hlc : d.len.toNat ≤ d.dat.length := by
    obtain ⟨_, w1, w2, _, _⟩ := hWF
    omega
  unfold Deque.ToSlice
  by_cases hz : d.len = 0
  · rw [if_pos hz]
    have hto : d.toList = [] := by
      unfold Deque.toList
      rw [hz]
      rfl
    rw [hto]
    exact ⟨fun _ => rfl, rfl, hWF, rfl, rfl, rfl, rfl⟩
  · rw [if_neg hz]
    simp only []
    by_cases hh0 : d.head ≠ 0
    · rw [if_pos hh0]
      obtain ⟨w0, w1, w2, w3, w4⟩ := hWF
      have hWFr := resize_WF d (d.dat.length : Int) ⟨w0, w1, w2, w3, w4⟩ w2
      have htor := resize_toList d (d.dat.length : Int) w0 w1 w2 hlc
        (fun hl => (w3 (by omega)).1)
      have hsl := slice_head_zero (d.resize (d.dat.length : Int)) (resize_head d _)
      rw [hsl, htor]
      refine ⟨fun h0 => absurd h0 hz, rfl, hWFr, rfl, resize_len d _, ?_, ?_⟩
      · rw [resize_dat_length]
        simp
      · exact drainShift_spec d.toList _ hWFr htor
    · rw [if_neg hh0]
      push_neg at hh0
      have hsl := slice_head_zero d hh0
      rw [hsl]
      exact ⟨fun h0 => absurd h0 hz, rfl, hWF, rfl, rfl, rfl,
        drainShift_spec d.toList d hWF rfl⟩

/-- Witness for C7 on a concrete wrapped deque (head 1, tail 0). -/
theorem c7_witness :
    (((⟨0, 0, 1, 0, 3, [30, 10, 20]⟩ : Deque Int)).len = 0 →
      (⟨0, 0, 1, 0, 3, [30, 10, 20]⟩ : Deque Int).ToSlice
        = ([], (⟨0, 0, 1, 0, 3, [30, 10, 20]⟩ : Deque Int))) ∧
    ((⟨0, 0, 1, 0, 3, [30, 10, 20]⟩ : Deque Int).ToSlice).1
      = (⟨0, 0, 1, 0, 3, [(30 : Int), 10, 20]⟩ : Deque Int).toList ∧
    WF ((⟨0, 0, 1, 0, 3, [30, 10, 20]⟩ : Deque Int).ToSlice).2 ∧
    ((⟨0, 0, 1, 0, 3, [30, 10, 20]⟩ : Deque Int).ToSlice).2.toList
      = (⟨0, 0, 1, 0, 3, [(30 : Int), 10, 20]⟩ : Deque Int).toList ∧
    ((⟨0, 0, 1, 0, 3, [30, 10, 20]⟩ : Deque Int).ToSlice).2.len
      = (⟨0, 0, 1, 0, 3, [(30 : Int), 10, 20]⟩ : Deque Int).len ∧
    ((⟨0, 0, 1, 0, 3, [30, 10, 20]⟩ : Deque Int).ToSlice).2.dat.length
      = (⟨0, 0, 1, 0, 3, [(30 : Int), 10, 20]⟩ : Deque Int).dat.length ∧
    drainShift (⟨0, 0, 1, 0, 3, [(30 : Int), 10, 20]⟩ : Deque Int).toList.length
        ((⟨0, 0, 1, 0, 3, [30, 10, 20]⟩ : Deque Int).ToSlice).2
      = (⟨0, 0, 1, 0, 3, [(30 : Int), 10, 20]⟩ : Deque Int).toList.map (fun v => (v, true)) :=
  c7_toslice_linearizes Int (⟨0, 0, 1, 0, 3, [30, 10, 20]⟩ : Deque Int) (by decide)

theorem capOK_mono {S S' : List Nat} {c : Nat} (hsub : ∀ b ∈ S, b ∈ S')
    (h : CapOK S c) : CapOK S' c := by
  obtain h0 | ⟨b, hb, k, hk⟩ := h
  · exact Or.inl h0
  · exact Or.inr ⟨b, hsub b hb, k, hk⟩

/-- The shrink step keeps the capacity invariant. -/
theorem shrink_capOK {T : Type} [Inhabited T] (m : Int) (S : List Nat)
    (d : Deque T) (hS : effMin m ∈ S) (hM : MOK m d) (hC : CapOK S d.dat.length) :
    MOK m d.shrink ∧ CapOK S (d.shrink).dat.length := by
  unfold Deque.shrink
  split_ifs with h1 h2 h3 h4
  · exact ⟨hM, hC⟩
  · exact ⟨hM, hC⟩
  · exact ⟨hM, hC⟩
  · exact ⟨hM, hC⟩
  · refine ⟨?_, ?_⟩
    · show MOK m ({d with dat := _, head := _, tail := _} : Deque T)
      exact hM
    · rw [resize_dat_length]
      obtain hm | ⟨hm0, hm32⟩ := hM
      · by_cases hmp : m ≤ 0
        · left
          rw [hm]
          omega
        · right
          refine ⟨effMin m, hS, 0, ?_⟩
          rw [hm]
          unfold effMin
          rw [if_neg hmp]
          simp
      · right
        refine ⟨effMin m, hS, 0, ?_⟩
        rw [hm32]
        unfold effMin DefaultSize
        rw [if_pos hm0]
        simp

/-- The grow step keeps the capacity invariant: it doubles from the
    current capacity, or from the effective minimum when unallocated. -/
theorem grow_capOK {T : Type} [Inhabited T] (m add : Int) (S : List Nat)
    (d : Deque T) (hS : effMin m ∈ S) (hM : MOK m d) (hC : CapOK S d.dat.length) :
    MOK m (d.grow add) ∧ CapOK S ((d.grow add).dat.length) := by
  unfold Deque.grow
  by_cases hov : d.len + add > (d.dat.length : Int)
  · rw [if_pos hov]
    simp only []
    have hM' : MOK m ({ d with Minsize := if d.Minsize ≤ 0 then DefaultSize else d.Minsize } : Deque T) := by
      show MOK m ({ d with Minsize := _ } : Deque T)
      unfold MOK
      show (if d.Minsize ≤ 0 then DefaultSize else d.Minsize) = m ∨
        (m ≤ 0 ∧ (if d.Minsize ≤ 0 then DefaultSize else d.Minsize) = DefaultSize)
      obtain hm | ⟨hm0, hm32⟩ := hM
      · split_ifs with hle
        · right
          rw [hm] at hle
          exact ⟨hle, rfl⟩
        · left
          exact hm
      · split_ifs with hle
        · right
          exact ⟨hm0, rfl⟩
        · right
          exact ⟨hm0, hm32⟩
    refine ⟨?_, ?_⟩
    · have : (Deque.resize { d with Minsize := if d.Minsize ≤ 0 then DefaultSize else d.Minsize }
          ((growLoop (if d.dat.length = 0 then (if d.Minsize ≤ 0 then DefaultSize else d.Minsize).toNat else d.dat.length) (d.len + add).toNat : Nat) : Int)).Minsize
          = ({ d with Minsize := if d.Minsize ≤ 0 then DefaultSize else d.Minsize } : Deque T).Minsize :=
        resize_Minsize _ _
      unfold MOK at hM' ⊢
      rw [this]
      exact hM'
    · rw [resize_dat_length, Int.toNat_natCast]
      obtain ⟨k, hk⟩ := growLoop_pow (if d.dat.length = 0
        then (if d.Minsize ≤ 0 then DefaultSize else d.Minsize).toNat
        else d.dat.length) (d.len + add).toNat
      rw [hk]
      by_cases hc0 : d.dat.length = 0
      · rw [if_pos hc0]
        right
        refine ⟨effMin m, hS, k, ?_⟩
        congr 1
        obtain hm | ⟨hm0, hm32⟩ := hM
        · rw [hm]
          unfold effMin
          split_ifs with hle
          · unfold DefaultSize
            rfl
          · rfl
        · rw [hm32]
          unfold effMin DefaultSize
          rw [if_pos hm0]
          rfl
      · rw [if_neg hc0]
        obtain h0 | ⟨b, hb, j, hj⟩ := hC
        · exact absurd h0 hc0
        · right
          refine ⟨b, hb, j + k, ?_⟩
          rw [hj, pow_add, mul_assoc]
  · rw [if_neg hov]
    exact ⟨hM, hC⟩

/-- Folding single pushes changes neither capacity nor Minsize. -/
theorem pushes_frame {T : Type} (vs : List T) : ∀ (d : Deque T),
    (vs.foldl Deque.push d).dat.length = d.dat.length ∧
    (vs.foldl Deque.push d).Minsize = d.Minsize := by
  induction vs with
  | nil => exact fun d => ⟨rfl, rfl⟩
  | cons v vs ih =>
    intro d
    obtain ⟨h1, h2⟩ := ih (d.push v)
    exact ⟨by rw [List.foldl_cons, h1, push_dat_length],
      by rw [List.foldl_cons, h2, push_Minsize]⟩

/-- Folding single unshifts changes neither capacity nor Minsize. -/
theorem unshifts_frame {T : Type} (vs : List T) : ∀ (d : Deque T),
    (vs.foldl Deque.unshift d).dat.length = d.dat.length ∧
    (vs.foldl Deque.unshift d).Minsize = d.Minsize := by
  induction vs with
  | nil => exact fun d => ⟨rfl, rfl⟩
  | cons v vs ih =>
    intro d
    obtain ⟨h1, h2⟩ := ih (d.unshift v)
    exact ⟨by rw [List.foldl_cons, h1, unshift_dat_length],
      by rw [List.foldl_cons, h2, unshift_Minsize]⟩

/-- Every single public operation keeps the capacity invariant, enlarging
    the base set only by the capacity of an adopted buffer. -/
theorem applyOp_capOK {T : Type} [Inhabited T] (m : Int) (S : List Nat)
    (d : Deque T) (op : DOp T) (hS : effMin m ∈ S) (hM : MOK m d)
    (hC : CapOK S d.dat.length) :
    MOK m (applyOp d op) ∧ CapOK (S ++ wrapBases [op]) ((applyOp d op).dat.length) := by
  have hmono : ∀ b ∈ S, b ∈ S ++ wrapBases [op] := fun b hb => List.mem_append_left _ hb
  cases op with
  | push vs =>
    obtain ⟨hg1, hg2⟩ := grow_capOK m (vs.length : Int) S d hS hM hC
    obtain ⟨hf1, hf2⟩ := pushes_frame vs (d.grow (vs.length : Int))
    show MOK m (d.Push vs) ∧ CapOK _ ((d.Push vs).dat.length)
    unfold Deque.Push
    constructor
    · unfold MOK at hg1 ⊢
      rw [hf2]
      exact hg1
    · rw [hf1]
      exact capOK_mono hmono hg2
  | unshift vs =>
    obtain ⟨hg1, hg2⟩ := grow_capOK m (vs.length : Int) S d hS hM hC
    obtain ⟨hf1, hf2⟩ := unshifts_frame vs (d.grow (vs.length : Int))
    show MOK m (d.Unshift vs) ∧ CapOK _ ((d.Unshift vs).dat.length)
    unfold Deque.Unshift
    constructor
    · unfold MOK at hg1 ⊢
      rw [hf2]
      exact hg1
    · rw [hf1]
      exact capOK_mono hmono hg2
  | pop =>
    show MOK m (d.Pop).2.2 ∧ CapOK _ ((d.Pop).2.2.dat.length)
    unfold Deque.Pop
    by_cases hl : 0 < d.len
    · rw [if_pos hl]
      simp only []
      have hM1 : MOK m ({ d with len := d.len - 1, tail := (if d.tail = 0 then (d.dat.length : Int) else d.tail) - 1 } : Deque T) := hM
      have hC1 : CapOK S ({ d with len := d.len - 1, tail := (if d.tail = 0 then (d.dat.length : Int) else d.tail) - 1 } : Deque T).dat.length := hC
      obtain ⟨h1, h2⟩ := shrink_capOK m S _ hS hM1 hC1
      exact ⟨h1, capOK_mono hmono h2⟩
    · rw [if_neg hl]
      exact ⟨hM, capOK_mono hmono hC⟩
  | shift =>
    show MOK m (d.Shift).2.2 ∧ CapOK _ ((d.Shift).2.2.dat.length)
    unfold Deque.Shift
    by_cases hl : 0 < d.len
    · rw [if_pos hl]
      simp only []
      have hM1 : MOK m ({ d with len := d.len - 1, head := if d.head + 1 = (d.dat.length : Int) then 0 else d.head + 1 } : Deque T) := hM
      have hC1 : CapOK S ({ d with len := d.len - 1, head := if d.head + 1 = (d.dat.length : Int) then 0 else d.head + 1 } : Deque T).dat.length := hC
      obtain ⟨h1, h2⟩ := shrink_capOK m S _ hS hM1 hC1
      exact ⟨h1, capOK_mono hmono h2⟩
    · rw [if_neg hl]
      exact ⟨hM, capOK_mono hmono hC⟩
  | peek =>
    show MOK m (d.Peek).2.2 ∧ CapOK _ ((d.Peek).2.2.dat.length)
    unfold Deque.Peek
    split_ifs with hl
    · exact ⟨hM, capOK_mono hmono hC⟩
    · exact ⟨hM, capOK_mono hmono hC⟩
  | peekShift =>
    show MOK m (d.PeekShift).2.2 ∧ CapOK _ ((d.PeekShift).2.2.dat.length)
    unfold Deque.PeekShift
    split_ifs with hl
    · exact ⟨hM, capOK_mono hmono hC⟩
    · exact ⟨hM, capOK_mono hmono hC⟩
  | toSlice =>
    show MOK m (d.ToSlice).2 ∧ CapOK _ ((d.ToSlice).2.dat.length)
    unfold Deque.ToSlice
    split_ifs with hl hh
    · exact ⟨hM, capOK_mono hmono hC⟩
    · constructor
      · unfold MOK at hM ⊢
        rw [resize_Minsize]
        exact hM
      · rw [resize_dat_length, Int.toNat_natCast]
        exact capOK_mono hmono hC
    · exact ⟨hM, capOK_mono hmono hC⟩
  | wrap arr l =>
    show MOK m (d.WrapSlice arr l) ∧ CapOK _ ((d.WrapSlice arr l).dat.length)
    constructor
    · exact hM
    · right
      refine ⟨arr.length, ?_, 0, by simp [Deque.WrapSlice]⟩
      apply List.mem_append_right
      show arr.length ∈ wrapBases [DOp.wrap arr l]
      unfold wrapBases
      exact List.mem_singleton.mpr rfl

/-- The capacity invariant carries over whole operation sequences. -/
theorem runOps_capOK {T : Type} [Inhabited T] (m : Int) (ops : List (DOp T)) :
    ∀ (d : Deque T) (S : List Nat), effMin m ∈ S → MOK m d →
    CapOK S d.dat.length →
    MOK m (runOps d ops) ∧ CapOK (S ++ wrapBases ops) ((runOps d ops).dat.length) := by
  induction ops with
  | nil =>
    intro d S hS hM hC
    exact ⟨hM, by simpa [wrapBases] using capOK_mono (fun b hb => hb) hC⟩
  | cons op ops ih =>
    intro d S hS hM hC
    obtain ⟨h1, h2⟩ := applyOp_capOK m S d op hS hM hC
    obtain ⟨h3, h4⟩ := ih (applyOp d op) (S ++ wrapBases [op])
      (List.mem_append_left _ hS) h1 h2
    refine ⟨h3, ?_⟩
    apply capOK_mono _ h4
    intro b hb
    cases op with
    | wrap arr l =>
      show b ∈ S ++ wrapBases (DOp.wrap arr l :: ops)
      rw [show wrapBases (DOp.wrap arr l :: ops) = arr.length :: wrapBases ops from rfl]
      rw [show wrapBases [DOp.wrap arr l] = [arr.length] from rfl] at hb
      simp only [List.mem_append, List.mem_cons, List.mem_singleton] at hb ⊢
      tauto
    | push vs =>
      simpa [wrapBases] using hb
    | unshift vs =>
      simpa [wrapBases] using hb
    | pop => simpa [wrapBases] using hb
    | shift => simpa [wrapBases] using hb
    | peek => simpa [wrapBases] using hb
    | peekShift => simpa [wrapBases] using hb
    | toSlice => simpa [wrapBases] using hb

/-- C6 amended: after any sequence of public operations from a fresh
    deque, the capacity is either 0 (unallocated) or a base times a power
    of two, where the base is the effective minimum size or the capacity
    of an adopted buffer; when all those bases are powers of two the
    capacity is 0 or a power of two. -/
theorem c6_capacity_doubles_from_base :
    ∀ (T : Type) [Inhabited T] (m s : Int) (ops : List (DOp T)),
    ((runOps (⟨m, s, 0, 0, 0, []⟩ : Deque T) ops).dat.length = 0 ∨
      ∃ b ∈ effMin m :: wrapBases ops, ∃ k : Nat,
        (runOps (⟨m, s, 0, 0, 0, []⟩ : Deque T) ops).dat.length = b * 2 ^ k) ∧
    ((∀ b ∈ effMin m :: wrapBases ops, ∃ j : Nat, b = 2 ^ j) →
      ((runOps (⟨m, s, 0, 0, 0, []⟩ : Deque T) ops).dat.length = 0 ∨
        ∃ k : Nat, (runOps (⟨m, s, 0, 0, 0, []⟩ : Deque T) ops).dat.length = 2 ^ k)) := by
  intro T _ m s ops
  obtain ⟨h1, h2⟩ := runOps_capOK m ops (⟨m, s, 0, 0, 0, []⟩ : Deque T) [effMin m]
    (List.mem_singleton.mpr rfl) (Or.inl rfl) (Or.inl rfl)
  have hcap : CapOK (effMin m :: wrapBases ops)
      ((runOps (⟨m, s, 0, 0, 0, []⟩ : Deque T) ops).dat.length) := by
    apply capOK_mono _ h2
    intro b hb
    simpa using hb
  constructor
  · exact hcap
  · intro hpow
    obtain hc0 | ⟨b, hb, k, hk⟩ := hcap
    · exact Or.inl hc0
    · obtain ⟨j, hj⟩ := hpow b hb
      exact Or.inr ⟨j + k, by rw [hk, hj, pow_add]⟩

/-- Counterexample to C6 as stated: a fresh deque with min_size 2 after
    the public operation Pop has capacity 0, which is neither a power of
    two (every power of two is at least 1) nor equal to min_size. -/
theorem c6_counterexample :
    (runOps (⟨2, 0, 0, 0, 0, []⟩ : Deque Int) [DOp.pop]).dat.length = 0 ∧
    (runOps (⟨2, 0, 0, 0, 0, []⟩ : Deque Int) [DOp.pop]).dat.length < 1 ∧
    ¬((runOps (⟨2, 0, 0, 0, 0, []⟩ : Deque Int) [DOp.pop]).dat.length
        = (⟨2, 0, 0, 0, 0, ([] : List Int)⟩ : Deque Int).Minsize.toNat) := by
  decide

/-- Witness for C6: with min_size 2 and three pushed values the capacity
    is 4 = 2 * 2, and all bases are powers of two. -/
theorem c6_witness :
    ((runOps (⟨2, 0, 0, 0, 0, []⟩ : Deque Int) [DOp.push [5, 6, 7]]).dat.length = 0 ∨
      ∃ b ∈ effMin 2 :: wrapBases [DOp.push [(5 : Int), 6, 7]], ∃ k : Nat,
        (runOps (⟨2, 0, 0, 0, 0, []⟩ : Deque Int) [DOp.push [5, 6, 7]]).dat.length
          = b * 2 ^ k) ∧
    ((runOps (⟨2, 0, 0, 0, 0, []⟩ : Deque Int) [DOp.push [5, 6, 7]]).dat.length = 0 ∨
      ∃ k : Nat,
        (runOps (⟨2, 0, 0, 0, 0, []⟩ : Deque Int) [DOp.push [5, 6, 7]]).dat.length
          = 2 ^ k) :=
  ⟨(c6_capacity_doubles_from_base Int 2 0 [DOp.push [5, 6, 7]]).1,
    (c6_capacity_doubles_from_base Int 2 0 [DOp.push [5, 6, 7]]).2
      (by intro b hb
          simp only [wrapBases, effMin, List.mem_singleton] at hb
          norm_num at hb
          exact ⟨1, by omega⟩)⟩
